import Mathlib

/-!
# Verification of the Waveshare 2.13" e-paper framebuffer core

Shallow embedding of the drawing core of `Waveshare_2-13inch_EPaper_driver.py`:
the packed 1-bit-per-pixel `FrameBuffer` with `draw_pixel`, `clear`,
`draw_line` (Bresenham), `draw_polygon` (outline plus scanline fill), the
polygon transform helpers (`scale_polygon`, `rotate_polygon`, `move_polygon`)
and `draw_text`.

Modelling conventions:
* Python integers are `Int` (exact, unbounded); bytes of the `bytearray` are
  `Nat` values `< 256`, the buffer is a `List Nat`.
* Python float division inside the scanline fill is modelled exactly by `ℚ`
  (the inputs are integers, so the real-number value is rational; `math.ceil`
  and `math.floor` on it are `ratCeil`/`ratFloor`).
* `math.cos`/`math.sin` of the rotation angle are abstracted as oracle
  parameters `cv sv : ℚ`: every theorem quantifying over them holds for the
  actual float values in particular.
* Python's in-place mutation of `self.buffer` becomes explicit state passing:
  each operation takes and returns a `FrameBuffer`.
* A Python runtime error (IndexError on `point_list[-1]` for an empty list,
  KeyError on a missing glyph) is an explicit error result (`Option` /
  `TextResult`), carrying the buffer state at the moment the error is raised.
-/

/-- `math.floor` on an exact rational (denominator is positive). -/
def ratFloor (q : ℚ) : Int := q.num.fdiv q.den

/-- `math.ceil` on an exact rational. -/
def ratCeil (q : ℚ) : Int := -ratFloor (-q)

/-- Python `int()` applied to a float value: truncation toward zero. -/
def pyInt (q : ℚ) : Int := if 0 ≤ q then ratFloor q else ratCeil q

/-- Python `round()` on an exact value: round half to even (banker's rounding). -/
def pyRound (q : ℚ) : Int :=
  let f := ratFloor q
  let r := q - f
  if r < 1/2 then f
  else if 1/2 < r then f + 1
  else if f % 2 = 0 then f else f + 1

/-- Python `range(a, b)` over integers, as the list `[a, a+1, ..., b-1]`. -/
def intRange (a b : Int) : List Int :=
  (List.range (b - a).toNat).map (fun i => a + i)

/-- Insert into a `≤`-sorted list of rationals. -/
def insertRat (x : ℚ) : List ℚ → List ℚ
  | [] => [x]
  | y :: ys => if x ≤ y then x :: y :: ys else y :: insertRat x ys

/-- Python `list.sort()` on rationals: the sorted rearrangement.  (A sorted
permutation of a multiset is unique as a list, so insertion sort produces
exactly the list Python's stable sort produces.) -/
def sortRat : List ℚ → List ℚ
  | [] => []
  | x :: xs => insertRat x (sortRat xs)

/-- `scale_polygon(polygon, scale)` from the source, for integer scale factors:
`int(round(x * scale))` is exact on integers, and `scale == 1` short-circuits. -/
def scale_polygon (polygon : List (Int × Int)) (scale : Int) : List (Int × Int) :=
  if scale = 1 then polygon
  else polygon.map (fun p => (p.1 * scale, p.2 * scale))

/-- `move_polygon(polygon, delta_x, delta_y)` from the source: `int(x + delta_x)`;
the deltas may be float-valued (rational) cursor coordinates. -/
def move_polygon (polygon : List (Int × Int)) (dx dy : ℚ) : List (Int × Int) :=
  polygon.map (fun p => (pyInt ((p.1 : ℚ) + dx), pyInt ((p.2 : ℚ) + dy)))

/-- `rotate_polygon(polygon, angle)` from the source.  `cv`/`sv` stand for the
values `math.cos(math.radians(angle))` / `math.sin(math.radians(angle))`;
`angle == 0` short-circuits before any trigonometry. -/
def rotate_polygon (cv sv : ℚ) (polygon : List (Int × Int)) (angle : Int) :
    List (Int × Int) :=
  if angle = 0 then polygon
  else polygon.map (fun p =>
    (pyRound ((p.1 : ℚ) * cv - (p.2 : ℚ) * sv),
     pyRound ((p.1 : ℚ) * sv + (p.2 : ℚ) * cv)))

/-- The `FrameBuffer` object: fields exactly as set up by `__init__`. -/
structure FrameBuffer where
  width : Nat
  height : Nat
  line_bytes : Nat
  buffer_size : Nat
  buffer : List Nat
  deriving DecidableEq, Repr

namespace FrameBuffer

/-- `FrameBuffer.__init__(width, height, bg)`: `line_bytes = (width + 7) // 8`,
`buffer = bytearray([bg] * line_bytes * height)`. -/
def init (width height : Nat) (bg : Nat) : FrameBuffer :=
  let lb := (width + 7) / 8
  ⟨width, height, lb, lb * height, List.replicate (lb * height) bg⟩

/-- `clear(color)`: `for i in range(self.buffer_size): self.buffer[i] = color`. -/
def clear (fb : FrameBuffer) (color : Nat) : FrameBuffer :=
  { fb with buffer := (List.range fb.buffer_size).foldl (fun b i => b.set i color) fb.buffer }

/-- `draw_pixel(x, y, color)`: out-of-bounds coordinates are silently ignored;
otherwise the bit `0x80 >> (x & 7)` of byte `y * line_bytes + (x >> 3)` is set
when `color` is truthy, cleared when it is `0`.  (For a byte value `b < 256`,
Python's `b & ~bit` equals `b &&& (0xff ^^^ bit)`.) -/
def draw_pixel (fb : FrameBuffer) (x y color : Int) : FrameBuffer :=
  if x < 0 ∨ (fb.width : Int) ≤ x ∨ y < 0 ∨ (fb.height : Int) ≤ y then fb
  else
    let byte_index := y.toNat * fb.line_bytes + (x.toNat >>> 3)
    let bit := 0x80 >>> (x.toNat &&& 7)
    let oldByte := fb.buffer.getD byte_index 0
    let newByte := if color ≠ 0 then oldByte ||| bit else oldByte &&& (0xff ^^^ bit)
    { fb with buffer := fb.buffer.set byte_index newByte }

end FrameBuffer

/-- One pass of the `while True` Bresenham loop of `draw_line`, with explicit
fuel (the caller supplies enough fuel for the loop to reach its `break`;
`bres_reach` below proves the supplied fuel always suffices).  Returns
the points plotted, in order. -/
def bres : Nat → Int → Int → Int → Int → Int → Int → Int → Int → Int → List (Int × Int)
  | 0, _, _, _, _, _, _, _, _, _ => []
  | fuel + 1, x0, y0, x1, y1, err, sx, sy, dx, dy =>
    (x0, y0) ::
      (if x0 = x1 ∧ y0 = y1 then []
       else
         let e2 := 2 * err
         let err1 := if dy ≤ e2 then err + dy else err
         let x0n := if dy ≤ e2 then x0 + sx else x0
         let err2 := if e2 ≤ dx then err1 + dx else err1
         let y0n := if e2 ≤ dx then y0 + sy else y0
         bres fuel x0n y0n x1 y1 err2 sx sy dx dy)

/-- The pixels plotted by `draw_line(x0, y0, x1, y1, _)`, in order.  The
Bresenham stepping never reads the buffer, so the source loop factors into
this pure trajectory followed by a fold of `draw_pixel` over it. -/
def linePixels (x0 y0 x1 y1 : Int) : List (Int × Int) :=
  let dx := |x1 - x0|
  let dy := -|y1 - y0|
  let sx : Int := if x0 < x1 then 1 else -1
  let sy : Int := if y0 < y1 then 1 else -1
  bres ((dx - dy).toNat + 1) x0 y0 x1 y1 (dx + dy) sx sy dx dy

/-- Apply a list of pixel writes, all with the same color, left to right. -/
def applyWrites (color : Int) (ws : List (Int × Int)) (fb : FrameBuffer) : FrameBuffer :=
  ws.foldl (fun b p => b.draw_pixel p.1 p.2 color) fb

namespace FrameBuffer

/-- `draw_line(x0, y0, x1, y1, color)`: plot every point of the Bresenham
trajectory with `draw_pixel`. -/
def draw_line (fb : FrameBuffer) (x0 y0 x1 y1 color : Int) : FrameBuffer :=
  applyWrites color (linePixels x0 y0 x1 y1) fb

/-- The scanline-fill block of `draw_polygon` (source lines 99-130): bounding
box clamp, per-scanline edge intersections with the half-open rule, sort,
pair, and span fill.  It reads the vertex list and the surface dimensions but
never the buffer contents. -/
def fillScan (fb : FrameBuffer) (point_list : List (Int × Int)) (color : Int) :
    FrameBuffer :=
  match point_list with
  | [] => fb
  | p0 :: _ =>
    let ys := point_list.map Prod.snd
    let min_y : Int := max (ys.foldl min p0.2) 0
    let max_y : Int := min (ys.foldl max p0.2) ((fb.height : Int) - 1)
    (intRange min_y (max_y + 1)).foldl (fun fbY (y : Int) =>
      let edges := point_list.zip (point_list.drop 1 ++ point_list.take 1)
      let intersections := edges.foldr (fun e acc =>
        if e.1.2 = e.2.2 then acc
        else if min e.1.2 e.2.2 ≤ y ∧ y < max e.1.2 e.2.2 then
          ((e.1.1 : ℚ) + ((y : ℚ) - (e.1.2 : ℚ)) * ((e.2.1 : ℚ) - (e.1.1 : ℚ))
              / ((e.2.2 : ℚ) - (e.1.2 : ℚ))) :: acc
        else acc) []
      (pairUp (sortRat intersections)).foldl (fun fbP pr =>
        let x_start := max (ratCeil pr.1) 0
        let x_end := min (ratFloor pr.2) ((fbP.width : Int) - 1)
        (intRange x_start (x_end + 1)).foldl (fun b x => b.draw_pixel x y color) fbP)
        fbY) fb
where
  /-- `for i in range(0, len, 2): if i + 1 < len: ...` — consecutive pairs. -/
  pairUp : List ℚ → List (ℚ × ℚ)
    | a :: b :: rest => (a, b) :: pairUp rest
    | _ => []

/-- The `for point in point_list` loop of `draw_polygon`: draw the edge from
the previous vertex, then (the fill block being indented inside this loop)
run a full scanline-fill pass when `fill` is set. -/
def polyLoop (point_list : List (Int × Int)) (color : Int) (fill : Bool) :
    (Int × Int) → List (Int × Int) → FrameBuffer → FrameBuffer
  | _, [], fb => fb
  | old, p :: rest, fb =>
    let fb1 := fb.draw_line old.1 old.2 p.1 p.2 color
    let fb2 := if fill then fb1.fillScan point_list color else fb1
    polyLoop point_list color fill p rest fb2

/-- `draw_polygon(point_list, color, fill)`.  `point_list[-1]` raises
IndexError on an empty list before anything is drawn: that is the `none`
case. -/
def draw_polygon (fb : FrameBuffer) (point_list : List (Int × Int)) (color : Int)
    (fill : Bool) : Option FrameBuffer :=
  match point_list.getLast? with
  | none => none
  | some old_point => some (polyLoop point_list color fill old_point point_list fb)

end FrameBuffer

/-- Observation of a single pixel of the packed buffer, per the documented
layout: bit 7 (MSB) of each byte is the leftmost pixel of its group. -/
def getPixel (fb : FrameBuffer) (x y : Nat) : Nat :=
  (fb.buffer.getD (y * fb.line_bytes + (x >>> 3)) 0 >>> (7 - (x &&& 7))) &&& 1

/-- The expected 10×10 surface after filling the rectangle
`[[2,2],[6,2],[6,5],[2,5]]` with ink (`0`) on a blank background: rows 2-5
have byte `0xC1 = 0b11000001` (pixels 2-6 cleared), all other bytes keep the
background `0xff`. -/
def rectFB : FrameBuffer :=
  ⟨10, 10, 2, 20,
   [255, 255, 255, 255, 193, 255, 193, 255, 193, 255, 193, 255,
    255, 255, 255, 255, 255, 255, 255, 255]⟩

/-- C5: for every `(x, y)` outside `[0, width) × [0, height)` and every tone,
`draw_pixel` is a no-op: it raises no error and leaves the buffer bytewise
unchanged (it returns the surface as is). -/
theorem draw_pixel_out_of_bounds (fb : FrameBuffer) (x y color : Int)
    (h : x < 0 ∨ (fb.width : Int) ≤ x ∨ y < 0 ∨ (fb.height : Int) ≤ y) :
    fb.draw_pixel x y color = fb := by
  unfold FrameBuffer.draw_pixel
  rw [if_pos h]

/-- Witness for C5 at the concrete out-of-bounds input `(-1, 2)` on a 4×4
surface. -/
theorem draw_pixel_out_of_bounds_witness :
    (FrameBuffer.init 4 4 0).draw_pixel (-1) 2 1 = FrameBuffer.init 4 4 0 :=
  draw_pixel_out_of_bounds (FrameBuffer.init 4 4 0) (-1) 2 1 (by decide)

/-- C6: the degenerate call `draw_line(x, y, x, y, tone)` plots exactly one
pixel, at `(x, y)`: the Bresenham trajectory is the single point `(x, y)`
(the loop writes the start point once and breaks when start equals end), so
the buffer effect is exactly one `draw_pixel` call. -/
theorem draw_line_degenerate (fb : FrameBuffer) (x y color : Int) :
    linePixels x y x y = [(x, y)] ∧
      fb.draw_line x y x y color = fb.draw_pixel x y color := by
  have h : linePixels x y x y = [(x, y)] := by
    simp [linePixels, bres]
  exact ⟨h, by simp [FrameBuffer.draw_line, h, applyWrites]⟩

/-- C2 counterexample: `draw_polygon` with the 2-vertex list `[(0,0), (3,0)]`
on a blank 8×1 surface does NOT reject the input: it returns normally
(`isSome`) and the buffer has changed (pixels were drawn), contradicting
"the error is raised and the surface buffer is bytewise unchanged". -/
theorem draw_polygon_two_vertices_draws :
    ((FrameBuffer.init 8 1 0xff).draw_polygon [(0, 0), (3, 0)] 0 false).isSome = true ∧
      (FrameBuffer.init 8 1 0xff).draw_polygon [(0, 0), (3, 0)] 0 false ≠
        some (FrameBuffer.init 8 1 0xff) := by
  decide

/-- C2 amended: `draw_polygon` performs no vertex-count validation at all.
The only failing input is the empty vertex list (IndexError on
`point_list[-1]`, before any drawing); every nonempty vertex list — including
1- and 2-vertex lists — is drawn without error. -/
theorem draw_polygon_error_iff_empty (fb : FrameBuffer)
    (point_list : List (Int × Int)) (color : Int) (fill : Bool) :
    (fb.draw_polygon point_list color fill).isSome ↔ point_list ≠ [] := by
  unfold FrameBuffer.draw_polygon
  rcases h : point_list.getLast? with _ | p
  · simp [List.getLast?_eq_none_iff.mp h]
  · have hne : point_list ≠ [] := by
      rintro rfl
      simp at h
    simp [hne]

set_option maxRecDepth 1000000 in
unseal Rat.mul Rat.add Rat.sub Rat.inv in
/-- C4: filling the rectangle `[[2,2],[6,2],[6,5],[2,5]]` with ink on a blank
10×10 surface produces exactly `rectFB`, whose pixels are ink exactly on the
box `2 ≤ x ≤ 6 ∧ 2 ≤ y ≤ 5` (ink = cleared bit = `0`), and background (`1`)
everywhere else. -/
theorem draw_polygon_rect_fill :
    (FrameBuffer.init 10 10 0xff).draw_polygon [(2, 2), (6, 2), (6, 5), (2, 5)] 0 true =
        some rectFB ∧
      ∀ x, x < 10 → ∀ y, y < 10 →
        getPixel rectFB x y = if 2 ≤ x ∧ x ≤ 6 ∧ 2 ≤ y ∧ y ≤ 5 then 0 else 1 := by
  constructor
  · decide
  · decide

/-- Witness for C4 at the concrete pixels `(3, 4)` (interior, ink) — the
bounded quantifier of the theorem applied at a concrete in-range input. -/
theorem draw_polygon_rect_fill_witness :
    getPixel rectFB 3 4 = if 2 ≤ 3 ∧ 3 ≤ 6 ∧ 2 ≤ 4 ∧ 4 ≤ 5 then 0 else 1 :=
  draw_polygon_rect_fill.2 3 (by decide) 4 (by decide)

/-- Result of `draw_text`.  Python mutates the buffer in place, so an error
raised mid-string leaves the pixels already drawn: every constructor carries
the buffer state, and `ok` also carries the final cursor `(tx, ty)`.
`missingGlyph` is the KeyError of `data[c]` for an unmapped character;
`polyError` is the IndexError `draw_polygon` raises on an empty glyph
polygon. -/
inductive TextResult where
  | ok (fb : FrameBuffer) (tx ty : ℚ)
  | missingGlyph (fb : FrameBuffer)
  | polyError (fb : FrameBuffer)
  deriving DecidableEq, Repr

/-- The buffer state carried by a `TextResult`. -/
def TextResult.fbuf : TextResult → FrameBuffer
  | .ok fb _ _ => fb
  | .missingGlyph fb => fb
  | .polyError fb => fb

namespace FrameBuffer

/-- The `for c in text` loop of `draw_text`: a space only advances the cursor;
any other character is looked up in the glyph table (`characters.json`,
supplied externally as the mapping `glyphs`), transformed by
scale → rotate → translate, and drawn with `draw_polygon`. -/
def draw_textAux (glyphs : Char → Option (List (Int × Int))) (size color : Int)
    (fill : Bool) (rotate : Int) (cv sv : ℚ) (adv_dx adv_dy : ℚ) :
    FrameBuffer → ℚ → ℚ → List Char → TextResult
  | fb, tx, ty, [] => .ok fb tx ty
  | fb, tx, ty, c :: rest =>
    if c = ' ' then
      draw_textAux glyphs size color fill rotate cv sv adv_dx adv_dy fb
        (tx + adv_dx) (ty + adv_dy) rest
    else
      match glyphs c with
      | none => .missingGlyph fb
      | some char_polygon =>
        match fb.draw_polygon
            (move_polygon (rotate_polygon cv sv (scale_polygon char_polygon size) rotate) tx ty)
            color fill with
        | none => .polyError fb
        | some fb1 =>
          draw_textAux glyphs size color fill rotate cv sv adv_dx adv_dy fb1
            (tx + adv_dx) (ty + adv_dy) rest

/-- `draw_text(x, y, text, size, color, fill, rotate)`.  When `rotate` is
truthy the advance vector is `(7*size*cos θ, 7*size*sin θ)` with `cv`/`sv`
the oracle values of `math.cos θ` / `math.sin θ`; otherwise it is
`(7*size, 0)`. -/
def draw_text (glyphs : Char → Option (List (Int × Int))) (fb : FrameBuffer)
    (x y : ℚ) (text : List Char) (size color : Int) (fill : Bool) (rotate : Int)
    (cv sv : ℚ) : TextResult :=
  let adv_dx : ℚ := if rotate ≠ 0 then 7 * size * cv else 7 * size
  let adv_dy : ℚ := if rotate ≠ 0 then 7 * size * sv else 0
  draw_textAux glyphs size color fill rotate cv sv adv_dx adv_dy fb x y text

end FrameBuffer

/-- `fb2` has the same dimensions, stride, declared size, and buffer length
as `fb`: everything except (possibly) the buffer contents. -/
def SameShape (fb fb2 : FrameBuffer) : Prop :=
  fb2.width = fb.width ∧ fb2.height = fb.height ∧ fb2.line_bytes = fb.line_bytes ∧
    fb2.buffer_size = fb.buffer_size ∧ fb2.buffer.length = fb.buffer.length

theorem SameShape.refl (fb : FrameBuffer) : SameShape fb fb :=
  ⟨Eq.refl _, Eq.refl _, Eq.refl _, Eq.refl _, Eq.refl _⟩

theorem SameShape.trans {fb fb2 fb3 : FrameBuffer} (h : SameShape fb fb2)
    (h2 : SameShape fb2 fb3) : SameShape fb fb3 := by
  obtain ⟨a, b, c, d, e⟩ := h
  obtain ⟨a2, b2, c2, d2, e2⟩ := h2
  exact ⟨a2.trans a, b2.trans b, c2.trans c, d2.trans d, e2.trans e⟩

theorem draw_pixel_shape (fb : FrameBuffer) (x y color : Int) :
    SameShape fb (fb.draw_pixel x y color) := by
  unfold FrameBuffer.draw_pixel
  split
  · exact SameShape.refl _
  · exact ⟨rfl, rfl, rfl, rfl, List.length_set ..⟩

/-- A fold whose step keeps the shape keeps the shape. -/
theorem foldl_shape {β : Type} (f : FrameBuffer → β → FrameBuffer)
    (hf : ∀ fb b, SameShape fb (f fb b)) (l : List β) :
    ∀ fb : FrameBuffer, SameShape fb (l.foldl f fb) := by
  induction l with
  | nil => exact fun fb => SameShape.refl _
  | cons b l ih => exact fun fb => (hf fb b).trans (ih (f fb b))

theorem applyWrites_shape (color : Int) (ws : List (Int × Int)) (fb : FrameBuffer) :
    SameShape fb (applyWrites color ws fb) := by
  unfold applyWrites
  exact foldl_shape _ (fun fb p => draw_pixel_shape fb p.1 p.2 color) ws fb

theorem draw_line_shape (fb : FrameBuffer) (x0 y0 x1 y1 color : Int) :
    SameShape fb (fb.draw_line x0 y0 x1 y1 color) :=
  applyWrites_shape color (linePixels x0 y0 x1 y1) fb

theorem fillScan_shape (fb : FrameBuffer) (pl : List (Int × Int)) (color : Int) :
    SameShape fb (fb.fillScan pl color) := by
  unfold FrameBuffer.fillScan
  split
  · exact SameShape.refl _
  · exact foldl_shape _
      (fun fbY y => foldl_shape _
        (fun fbP pr => foldl_shape _ (fun b x => draw_pixel_shape b x y color) _ fbP) _ fbY)
      _ fb

theorem polyLoop_shape (pl : List (Int × Int)) (color : Int) (fill : Bool) :
    ∀ (pts : List (Int × Int)) (old : Int × Int) (fb : FrameBuffer),
      SameShape fb (FrameBuffer.polyLoop pl color fill old pts fb) := by
  intro pts
  induction pts with
  | nil => exact fun old fb => SameShape.refl _
  | cons p rest ih =>
    intro old fb
    refine ((draw_line_shape fb old.1 old.2 p.1 p.2 color).trans ?_)
    unfold FrameBuffer.polyLoop
    rcases fill with _ | _
    · exact ih p _
    · exact (fillScan_shape _ pl color).trans (ih p _)

theorem draw_polygon_shape (fb : FrameBuffer) (pl : List (Int × Int)) (color : Int)
    (fill : Bool) (fb2 : FrameBuffer) (h : fb.draw_polygon pl color fill = some fb2) :
    SameShape fb fb2 := by
  unfold FrameBuffer.draw_polygon at h
  rcases hl : pl.getLast? with _ | p <;> rw [hl] at h
  · exact absurd h (by simp)
  · exact (Option.some_injective _ h) ▸ polyLoop_shape pl color fill pl p fb

theorem clear_shape (fb : FrameBuffer) (color : Nat) :
    SameShape fb (fb.clear color) := by
  unfold FrameBuffer.clear
  refine ⟨rfl, rfl, rfl, rfl, ?_⟩
  generalize List.range fb.buffer_size = l
  induction l generalizing fb with
  | nil => rfl
  | cons i l ih =>
    simpa [List.length_set] using ih { fb with buffer := fb.buffer.set i color }

theorem draw_textAux_shape (glyphs : Char → Option (List (Int × Int)))
    (size color : Int) (fill : Bool) (rotate : Int) (cv sv : ℚ) (adx ady : ℚ)
    (text : List Char) :
    ∀ (fb : FrameBuffer) (tx ty : ℚ),
      SameShape fb (FrameBuffer.draw_textAux glyphs size color fill rotate cv sv
        adx ady fb tx ty text).fbuf := by
  induction text with
  | nil => exact fun fb tx ty => SameShape.refl _
  | cons c rest ih =>
    intro fb tx ty
    unfold FrameBuffer.draw_textAux
    split
    · exact ih fb _ _
    · rcases glyphs c with _ | poly
      · exact SameShape.refl _
      · simp only
        rcases hp : fb.draw_polygon
            (move_polygon (rotate_polygon cv sv (scale_polygon poly size) rotate) tx ty)
            color fill with _ | fb1
        · exact SameShape.refl _
        · exact (draw_polygon_shape _ _ _ _ _ hp).trans (ih fb1 _ _)

theorem draw_text_shape (glyphs : Char → Option (List (Int × Int))) (fb : FrameBuffer)
    (x y : ℚ) (text : List Char) (size color : Int) (fill : Bool) (rotate : Int)
    (cv sv : ℚ) :
    SameShape fb (fb.draw_text glyphs x y text size color fill rotate cv sv).fbuf :=
  draw_textAux_shape glyphs size color fill rotate cv sv _ _ text fb x y

/-- A drawing operation of the core, with its call arguments.  `polygon` and
`text` may raise (empty vertex list / missing glyph); Python then leaves the
in-place buffer in the state carried by the error, which is what the
projection to a `FrameBuffer` returns. -/
inductive Op where
  | clear (color : Nat)
  | pixel (x y color : Int)
  | line (x0 y0 x1 y1 color : Int)
  | polygon (pl : List (Int × Int)) (color : Int) (fill : Bool)
  | text (glyphs : Char → Option (List (Int × Int))) (x y : ℚ) (s : List Char)
      (size color : Int) (fill : Bool) (rotate : Int) (cv sv : ℚ)

/-- Run one operation on the surface. -/
def applyOp (fb : FrameBuffer) : Op → FrameBuffer
  | .clear c => fb.clear c
  | .pixel x y c => fb.draw_pixel x y c
  | .line x0 y0 x1 y1 c => fb.draw_line x0 y0 x1 y1 c
  | .polygon pl c fill => (fb.draw_polygon pl c fill).getD fb
  | .text glyphs x y s size c fill rotate cv sv =>
      (fb.draw_text glyphs x y s size c fill rotate cv sv).fbuf

/-- Run a sequence of operations on the surface. -/
def execOps (fb : FrameBuffer) (ops : List Op) : FrameBuffer :=
  ops.foldl applyOp fb

theorem applyOp_shape (fb : FrameBuffer) (op : Op) : SameShape fb (applyOp fb op) := by
  rcases op with c | ⟨x, y, c⟩ | ⟨x0, y0, x1, y1, c⟩ | ⟨pl, c, fill⟩ | ⟨g, x, y, s, sz, c, fill, r, cv, sv⟩
  · exact clear_shape fb c
  · exact draw_pixel_shape fb x y c
  · exact draw_line_shape fb x0 y0 x1 y1 c
  · rcases hp : fb.draw_polygon pl c fill with _ | fb2
    · simp [applyOp, hp]
      exact SameShape.refl _
    · simpa [applyOp, hp] using draw_polygon_shape fb pl c fill fb2 hp
  · exact draw_text_shape g fb x y s sz c fill r cv sv

/-- C7: for every surface constructed with positive dimensions and every
sequence of core operations, `buffer.length = line_bytes * height` holds with
`line_bytes = (width + 7) / 8 = ⌈width / 8⌉`, and the dimensions and stride
are never changed by any operation. -/
theorem execOps_invariant (w h bg : Nat) (ops : List Op) (hw : 0 < w) (hh : 0 < h) :
    (execOps (FrameBuffer.init w h bg) ops).width = w ∧
      (execOps (FrameBuffer.init w h bg) ops).height = h ∧
      (execOps (FrameBuffer.init w h bg) ops).line_bytes = (w + 7) / 8 ∧
      (execOps (FrameBuffer.init w h bg) ops).buffer.length =
        (execOps (FrameBuffer.init w h bg) ops).line_bytes *
          (execOps (FrameBuffer.init w h bg) ops).height := by
  obtain ⟨hw', hh', hl', _, hb'⟩ := foldl_shape applyOp applyOp_shape ops (FrameBuffer.init w h bg)
  have hinit : (FrameBuffer.init w h bg).buffer.length = ((w + 7) / 8) * h := by
    simp [FrameBuffer.init]
  refine ⟨hw', hh', hl', ?_⟩
  rw [execOps] at *
  rw [hb', hinit, hl', hh']
  simp [FrameBuffer.init]

/-- Witness for C7: a 10×3 surface with one operation of each kind applied,
including a filled polygon and a text call. -/
theorem execOps_invariant_witness :
    (execOps (FrameBuffer.init 10 3 0xff)
        [.clear 0, .pixel 1 1 0, .line 0 0 4 2 1,
         .polygon [(0, 0), (6, 0), (3, 2)] 1 true,
         .text (fun c => if c = 'v' then some [(0, 0), (2, 0), (1, 2)] else none)
           1 0 ['v', ' ', 'v'] 1 1 false 0 1 0]).width = 10 ∧
      (execOps (FrameBuffer.init 10 3 0xff)
        [.clear 0, .pixel 1 1 0, .line 0 0 4 2 1,
         .polygon [(0, 0), (6, 0), (3, 2)] 1 true,
         .text (fun c => if c = 'v' then some [(0, 0), (2, 0), (1, 2)] else none)
           1 0 ['v', ' ', 'v'] 1 1 false 0 1 0]).height = 3 ∧
      (execOps (FrameBuffer.init 10 3 0xff)
        [.clear 0, .pixel 1 1 0, .line 0 0 4 2 1,
         .polygon [(0, 0), (6, 0), (3, 2)] 1 true,
         .text (fun c => if c = 'v' then some [(0, 0), (2, 0), (1, 2)] else none)
           1 0 ['v', ' ', 'v'] 1 1 false 0 1 0]).line_bytes = (10 + 7) / 8 ∧
      (execOps (FrameBuffer.init 10 3 0xff)
        [.clear 0, .pixel 1 1 0, .line 0 0 4 2 1,
         .polygon [(0, 0), (6, 0), (3, 2)] 1 true,
         .text (fun c => if c = 'v' then some [(0, 0), (2, 0), (1, 2)] else none)
           1 0 ['v', ' ', 'v'] 1 1 false 0 1 0]).buffer.length =
        (execOps (FrameBuffer.init 10 3 0xff)
        [.clear 0, .pixel 1 1 0, .line 0 0 4 2 1,
         .polygon [(0, 0), (6, 0), (3, 2)] 1 true,
         .text (fun c => if c = 'v' then some [(0, 0), (2, 0), (1, 2)] else none)
           1 0 ['v', ' ', 'v'] 1 1 false 0 1 0]).line_bytes *
        (execOps (FrameBuffer.init 10 3 0xff)
        [.clear 0, .pixel 1 1 0, .line 0 0 4 2 1,
         .polygon [(0, 0), (6, 0), (3, 2)] 1 true,
         .text (fun c => if c = 'v' then some [(0, 0), (2, 0), (1, 2)] else none)
           1 0 ['v', ' ', 'v'] 1 1 false 0 1 0]).height :=
  execOps_invariant 10 3 0xff
    [.clear 0, .pixel 1 1 0, .line 0 0 4 2 1,
     .polygon [(0, 0), (6, 0), (3, 2)] 1 true,
     .text (fun c => if c = 'v' then some [(0, 0), (2, 0), (1, 2)] else none)
       1 0 ['v', ' ', 'v'] 1 1 false 0 1 0] (by decide) (by decide)

/-- Observation of bit `k` (in `Nat.testBit` numbering, bit 7 = MSB) of byte
`j` of the surface buffer. -/
def byteBit (fb : FrameBuffer) (j k : Nat) : Bool :=
  (fb.buffer.getD j 0).testBit k

/-- C10: an in-bounds `draw_pixel(x, y, color)` modifies at most the single
bit selected by mask `0x80 >> (x & 7)` of the byte at index
`y * line_bytes + (x >> 3)`: that bit becomes the truthiness of `color`
(set when `color ≠ 0`, cleared when `color = 0`), and every other bit of the
buffer is unchanged. -/
theorem draw_pixel_bit_effect (fb : FrameBuffer) (x y color : Int) (j k : Nat)
    (hx0 : 0 ≤ x) (hx : x < (fb.width : Int)) (hy0 : 0 ≤ y) (hy : y < (fb.height : Int))
    (hj : j < fb.buffer.length) (hk : k < 8) :
    byteBit (fb.draw_pixel x y color) j k =
      if j = y.toNat * fb.line_bytes + (x.toNat >>> 3) ∧ (2 : Nat) ^ k = 128 >>> (x.toNat &&& 7)
      then decide (color ≠ 0)
      else byteBit fb j k := by
  have hr : x.toNat &&& 7 = x.toNat % 8 := by
    simpa using Nat.and_pow_two_sub_one_eq_mod x.toNat 3
  have hr8 : x.toNat % 8 < 8 := Nat.mod_lt _ (by norm_num)
  have hmask : (128 : Nat) >>> (x.toNat &&& 7) = 2 ^ (7 - x.toNat % 8) := by
    rw [hr, Nat.shiftRight_eq_div_pow, show (128 : Nat) = 2 ^ 7 from rfl,
      Nat.pow_div (by omega) (by norm_num)]
  have hguard : ¬(x < 0 ∨ (fb.width : Int) ≤ x ∨ y < 0 ∨ (fb.height : Int) ≤ y) := by
    omega
  have h255 : ∀ i : Nat, (255 : Nat).testBit i = decide (i < 8) := fun i => by
    rw [show (255 : Nat) = 2 ^ 8 - 1 from rfl, Nat.testBit_two_pow_sub_one]
  unfold FrameBuffer.draw_pixel
  rw [if_neg hguard]
  simp only [byteBit, hmask]
  rcases Nat.decEq j (y.toNat * fb.line_bytes + (x.toNat >>> 3)) with hj2 | hj2
  · conv_rhs => rw [if_neg (show ¬(j = y.toNat * fb.line_bytes + (x.toNat >>> 3) ∧
      (2 : Nat) ^ k = 2 ^ (7 - x.toNat % 8)) from fun h2 => hj2 h2.1)]
    simp [List.getD_eq_getElem?_getD, List.getElem?_set_ne (Ne.symm hj2)]
  · subst hj2
    have hset : ∀ v : Nat, ((fb.buffer.set (y.toNat * fb.line_bytes + (x.toNat >>> 3)) v).getD
        (y.toNat * fb.line_bytes + (x.toNat >>> 3)) 0) = v := fun v => by
      simp [List.getD_eq_getElem?_getD, List.getElem?_set_self, hj]
    rcases Nat.decEq k (7 - x.toNat % 8) with hk2 | hk2
    · conv_rhs => rw [if_neg (show ¬(_ ∧ (2 : Nat) ^ k = 2 ^ (7 - x.toNat % 8)) from
        fun h2 => hk2 (Nat.pow_right_injective (by norm_num) h2.2))]
      rcases eq_or_ne color 0 with hc | hc
      · rw [show (if color ≠ 0 then fb.buffer.getD (y.toNat * fb.line_bytes + (x.toNat >>> 3)) 0 |||
            2 ^ (7 - x.toNat % 8)
          else fb.buffer.getD (y.toNat * fb.line_bytes + (x.toNat >>> 3)) 0 &&&
            (255 ^^^ 2 ^ (7 - x.toNat % 8))) =
          fb.buffer.getD (y.toNat * fb.line_bytes + (x.toNat >>> 3)) 0 &&&
            (255 ^^^ 2 ^ (7 - x.toNat % 8)) from if_neg (by simp [hc])]
        rw [hset]
        simp [Nat.testBit_land, Nat.testBit_xor, h255,
          Nat.testBit_two_pow, hk, show ¬(7 - x.toNat % 8 = k) from fun h2 => hk2 h2.symm]
      · rw [if_pos hc, hset]
        simp [Nat.testBit_lor, Nat.testBit_two_pow,
          show ¬(7 - x.toNat % 8 = k) from fun h2 => hk2 h2.symm]
    · subst hk2
      conv_rhs => rw [if_pos ⟨rfl, rfl⟩]
      rcases eq_or_ne color 0 with hc | hc
      · rw [show (if color ≠ 0 then fb.buffer.getD (y.toNat * fb.line_bytes + (x.toNat >>> 3)) 0 |||
            2 ^ (7 - x.toNat % 8)
          else fb.buffer.getD (y.toNat * fb.line_bytes + (x.toNat >>> 3)) 0 &&&
            (255 ^^^ 2 ^ (7 - x.toNat % 8))) =
          fb.buffer.getD (y.toNat * fb.line_bytes + (x.toNat >>> 3)) 0 &&&
            (255 ^^^ 2 ^ (7 - x.toNat % 8)) from if_neg (by simp [hc])]
        rw [hset]
        simp [hc, Nat.testBit_land, Nat.testBit_xor, h255,
          Nat.testBit_two_pow, show 7 - x.toNat % 8 < 8 by omega]
      · rw [if_pos hc, hset]
        simp [hc, Nat.testBit_lor, Nat.testBit_two_pow]

/-- Witness for C10: on an 8×2 surface of zero bytes, `draw_pixel 3 1 1`
turns on exactly bit `4 = 7 - 3` of byte `1`, checked at `(j, k) = (1, 4)`. -/
theorem draw_pixel_bit_effect_witness :
    byteBit ((FrameBuffer.init 8 2 0).draw_pixel 3 1 1) 1 4 =
      if 1 = (1 : Int).toNat * (FrameBuffer.init 8 2 0).line_bytes + ((3 : Int).toNat >>> 3) ∧
          (2 : Nat) ^ 4 = 128 >>> ((3 : Int).toNat &&& 7)
      then decide ((1 : Int) ≠ 0)
      else byteBit (FrameBuffer.init 8 2 0) 1 4 :=
  draw_pixel_bit_effect (FrameBuffer.init 8 2 0) 3 1 1 1 4 (by decide) (by decide)
    (by decide) (by decide) (by decide) (by decide)

/-- C8: a one-character `draw_text` call at `rotate = 0` with a mapped,
non-space character draws the glyph polygon transformed by
scale(size) → rotate(0) → translate(x, y) at the starting cursor and returns
with the cursor advanced by exactly `(7*size, 0)`; a space draws nothing and
advances the cursor by the same vector. -/
theorem draw_text_single_char (glyphs : Char → Option (List (Int × Int)))
    (fb : FrameBuffer) (x y : ℚ) (c : Char) (size color : Int) (fill : Bool)
    (cv sv : ℚ) (poly : List (Int × Int)) (fb2 : FrameBuffer)
    (hg : glyphs c = some poly) (hc : c ≠ ' ')
    (hp : fb.draw_polygon (move_polygon (rotate_polygon cv sv (scale_polygon poly size) 0) x y)
        color fill = some fb2) :
    fb.draw_text glyphs x y [c] size color fill 0 cv sv =
        .ok fb2 (x + 7 * size) y ∧
      fb.draw_text glyphs x y [' '] size color fill 0 cv sv =
        .ok fb (x + 7 * size) y := by
  constructor
  · simp only [FrameBuffer.draw_text, FrameBuffer.draw_textAux, if_neg hc, hg, hp]
    norm_num
  · simp only [FrameBuffer.draw_text, FrameBuffer.draw_textAux, if_pos rfl]
    norm_num

/-- The concrete glyph table for the text witnesses: only `v` is mapped. -/
def glyphsV : Char → Option (List (Int × Int)) :=
  fun c => if c = 'v' then some [(0, 0), (2, 0), (1, 2)] else none

/-- The 8×4 surface after drawing the `v` glyph translated to `(1, 1)`. -/
def fbV : FrameBuffer := ⟨8, 4, 1, 4, [255, 143, 159, 223]⟩

unseal Rat.mul Rat.add Rat.sub Rat.inv in
/-- Witness for C8: the `v` glyph at cursor `(1, 1)`, size 1, ink tone. -/
theorem draw_text_single_char_witness :
    FrameBuffer.draw_text glyphsV (FrameBuffer.init 8 4 0xff) 1 1 ['v'] 1 0 false 0 1 0 =
        .ok fbV 8 1 ∧
      FrameBuffer.draw_text glyphsV (FrameBuffer.init 8 4 0xff) 1 1 [' '] 1 0 false 0 1 0 =
        .ok (FrameBuffer.init 8 4 0xff) 8 1 := by
  have h := draw_text_single_char glyphsV (FrameBuffer.init 8 4 0xff) 1 1 'v' 1 0 false 1 0
    [(0, 0), (2, 0), (1, 2)] fbV (by decide) (by decide) (by decide)
  norm_num at h
  exact h

/-- If the `for c in text` loop completes a prefix successfully and then meets
a non-space character with no glyph-table entry, the whole loop returns
`missingGlyph` carrying exactly the prefix's buffer: characters after the
unmapped one are never processed. -/
theorem draw_textAux_missing (glyphs : Char → Option (List (Int × Int)))
    (size color : Int) (fill : Bool) (rotate : Int) (cv sv adx ady : ℚ)
    (c : Char) (post : List Char) (hc : c ≠ ' ') (hg : glyphs c = none) :
    ∀ (pre : List Char) (fb : FrameBuffer) (tx ty : ℚ) (fb2 : FrameBuffer) (tx2 ty2 : ℚ),
      FrameBuffer.draw_textAux glyphs size color fill rotate cv sv adx ady fb tx ty pre =
        .ok fb2 tx2 ty2 →
      FrameBuffer.draw_textAux glyphs size color fill rotate cv sv adx ady fb tx ty
        (pre ++ c :: post) = .missingGlyph fb2 := by
  intro pre
  induction pre with
  | nil =>
    intro fb tx ty fb2 tx2 ty2 h
    obtain ⟨rfl, -, -⟩ : fb = fb2 ∧ tx = tx2 ∧ ty = ty2 := by
      refine ⟨?_, ?_, ?_⟩ <;> injection h
    simp [FrameBuffer.draw_textAux, hc, hg]
  | cons d rest ih =>
    intro fb tx ty fb2 tx2 ty2 h
    rw [List.cons_append]
    unfold FrameBuffer.draw_textAux at h ⊢
    rcases eq_or_ne d ' ' with hd | hd
    · rw [if_pos hd] at h ⊢
      exact ih _ _ _ _ _ _ h
    · rw [if_neg hd] at h ⊢
      rcases hgd : glyphs d with _ | poly
      · simp only [hgd] at h
        exact absurd h (by simp)
      · simp only [hgd] at h
        rcases hp : fb.draw_polygon
            (move_polygon (rotate_polygon cv sv (scale_polygon poly size) rotate) tx ty)
            color fill with _ | fb1
        · simp only [hp] at h
          exact absurd h (by simp)
        · simp only [hp] at h
          simp only [hp]
          exact ih _ _ _ _ _ _ h

/-- C3: if `draw_text` succeeds on a prefix of the string and the next
character is non-space and unmapped in the glyph table, the whole call
returns the missing-glyph error (the KeyError of `data[c]`, propagated to the
caller, not swallowed), and the buffer is exactly the prefix's buffer: no
drawing happened for the unmapped character or anything after it. -/
theorem draw_text_missing_glyph (glyphs : Char → Option (List (Int × Int)))
    (fb : FrameBuffer) (x y : ℚ) (pre : List Char) (c : Char) (post : List Char)
    (size color : Int) (fill : Bool) (rotate : Int) (cv sv : ℚ)
    (fb2 : FrameBuffer) (tx2 ty2 : ℚ)
    (hok : fb.draw_text glyphs x y pre size color fill rotate cv sv = .ok fb2 tx2 ty2)
    (hc : c ≠ ' ') (hg : glyphs c = none) :
    fb.draw_text glyphs x y (pre ++ c :: post) size color fill rotate cv sv =
      .missingGlyph fb2 := by
  unfold FrameBuffer.draw_text at hok ⊢
  exact draw_textAux_missing glyphs size color fill rotate cv sv _ _ c post hc hg
    pre fb x y fb2 tx2 ty2 hok

unseal Rat.mul Rat.add Rat.sub Rat.inv in
/-- Witness for C3: prefix `"v "` draws the glyph, then the unmapped `q`
aborts with the prefix's buffer; the trailing `v` is never drawn. -/
theorem draw_text_missing_glyph_witness :
    FrameBuffer.draw_text glyphsV (FrameBuffer.init 8 4 0xff) 1 1
        (['v', ' '] ++ 'q' :: ['v']) 1 0 false 0 1 0 = .missingGlyph fbV :=
  draw_text_missing_glyph glyphsV (FrameBuffer.init 8 4 0xff) 1 1 ['v', ' '] 'q' ['v']
    1 0 false 0 1 0 fbV 15 1 (by decide) (by decide) (by decide)

theorem draw_pixel_width (fb : FrameBuffer) (x y c : Int) :
    (fb.draw_pixel x y c).width = fb.width := (draw_pixel_shape fb x y c).1

theorem draw_pixel_height (fb : FrameBuffer) (x y c : Int) :
    (fb.draw_pixel x y c).height = fb.height := (draw_pixel_shape fb x y c).2.1

/-- Internal form of the out-of-bounds clipping of `draw_pixel`. -/
theorem draw_pixel_skip (fb : FrameBuffer) (x y c : Int)
    (h : x < 0 ∨ (fb.width : Int) ≤ x ∨ y < 0 ∨ (fb.height : Int) ≤ y) :
    fb.draw_pixel x y c = fb := by
  unfold FrameBuffer.draw_pixel
  rw [if_pos h]

/-- The per-byte modification a pixel write of color `c` and mask `m`
performs: set the mask's bit when `c` is truthy, clear it when `c = 0`. -/
def pxByte (c : Int) (m : Nat) (v : Nat) : Nat :=
  if c ≠ 0 then v ||| m else v &&& (255 ^^^ m)

/-- Internal form of the in-bounds write of `draw_pixel`. -/
theorem draw_pixel_write (fb : FrameBuffer) (x y c : Int)
    (h : ¬(x < 0 ∨ (fb.width : Int) ≤ x ∨ y < 0 ∨ (fb.height : Int) ≤ y)) :
    fb.draw_pixel x y c = { fb with
      buffer := fb.buffer.set (y.toNat * fb.line_bytes + (x.toNat >>> 3))
        (pxByte c (128 >>> (x.toNat &&& 7))
          (fb.buffer.getD (y.toNat * fb.line_bytes + (x.toNat >>> 3)) 0)) } := by
  unfold FrameBuffer.draw_pixel
  rw [if_neg h]
  rfl

/-- `getD` of a just-written in-range cell. -/
theorem getD_set_self (l : List Nat) (i : Nat) (a : Nat) (h : i < l.length) :
    (l.set i a).getD i 0 = a := by
  simp [List.getD_eq_getElem?_getD, List.getElem?_set_self, h]

/-- `getD` of a cell other than the written one. -/
theorem getD_set_ne (l : List Nat) (i j : Nat) (a : Nat) (h : i ≠ j) :
    (l.set i a).getD j 0 = l.getD j 0 := by
  simp [List.getD_eq_getElem?_getD, List.getElem?_set_ne h]

/-- Two read-modify-write updates of single list cells commute when the two
modification functions commute. -/
theorem set_getD_comm (l : List Nat) (i j : Nat) (f g : Nat → Nat)
    (hfg : ∀ v, f (g v) = g (f v)) :
    (l.set i (f (l.getD i 0))).set j (g ((l.set i (f (l.getD i 0))).getD j 0)) =
      (l.set j (g (l.getD j 0))).set i (f ((l.set j (g (l.getD j 0))).getD i 0)) := by
  rcases Nat.decEq i j with hij | hij
  · rw [getD_set_ne _ _ _ _ hij, getD_set_ne _ _ _ _ (Ne.symm hij),
      List.set_comm _ _ _ hij]
  · subst hij
    rcases Nat.lt_or_ge i l.length with hi | hi
    · rw [getD_set_self _ _ _ hi, getD_set_self _ _ _ hi, List.set_set, List.set_set, hfg]
    · simp [List.set_eq_of_length_le hi]

/-- A read-modify-write update of a single list cell is idempotent when the
modification function is. -/
theorem set_getD_idem (l : List Nat) (i : Nat) (f : Nat → Nat)
    (hff : ∀ v, f (f v) = f v) :
    (l.set i (f (l.getD i 0))).set i (f ((l.set i (f (l.getD i 0))).getD i 0)) =
      l.set i (f (l.getD i 0)) := by
  rcases Nat.lt_or_ge i l.length with hi | hi
  · rw [getD_set_self _ _ _ hi, List.set_set, hff]
  · simp [List.set_eq_of_length_le hi]

/-- The per-byte modification functions of two same-color pixel writes
commute. -/
theorem pxByte_comm (c : Int) (m1 m2 : Nat) : ∀ v : Nat,
    pxByte c m1 (pxByte c m2 v) = pxByte c m2 (pxByte c m1 v) := by
  intro v
  rcases eq_or_ne c 0 with hc | hc
  · simp only [pxByte, hc, ne_eq, not_true_eq_false, if_false, Nat.land_assoc]
    rw [Nat.land_comm (255 ^^^ m2) (255 ^^^ m1)]
  · simp only [pxByte, hc, ne_eq, not_false_eq_true, if_true, Nat.lor_assoc]
    rw [Nat.lor_comm m2 m1]

/-- The per-byte modification function of a pixel write is idempotent. -/
theorem pxByte_idem (c : Int) (m : Nat) : ∀ v : Nat,
    pxByte c m (pxByte c m v) = pxByte c m v := by
  intro v
  rcases eq_or_ne c 0 with hc | hc
  · simp [pxByte, hc, Nat.land_assoc]
  · simp [pxByte, hc, Nat.lor_assoc]

/-- Two `draw_pixel` calls with the same color commute. -/
theorem draw_pixel_comm (fb : FrameBuffer) (x1 y1 x2 y2 c : Int) :
    (fb.draw_pixel x1 y1 c).draw_pixel x2 y2 c =
      (fb.draw_pixel x2 y2 c).draw_pixel x1 y1 c := by
  by_cases h1 : x1 < 0 ∨ (fb.width : Int) ≤ x1 ∨ y1 < 0 ∨ (fb.height : Int) ≤ y1
  · rw [draw_pixel_skip fb x1 y1 c h1,
      draw_pixel_skip (fb.draw_pixel x2 y2 c) x1 y1 c
        (by rwa [draw_pixel_width, draw_pixel_height])]
  · by_cases h2 : x2 < 0 ∨ (fb.width : Int) ≤ x2 ∨ y2 < 0 ∨ (fb.height : Int) ≤ y2
    · rw [draw_pixel_skip fb x2 y2 c h2,
        draw_pixel_skip (fb.draw_pixel x1 y1 c) x2 y2 c
          (by rwa [draw_pixel_width, draw_pixel_height])]
    · rw [draw_pixel_write fb x1 y1 c h1, draw_pixel_write fb x2 y2 c h2,
        draw_pixel_write _ x2 y2 c (by simpa using h2),
        draw_pixel_write _ x1 y1 c (by simpa using h1)]
      simp only
      congr 1
      exact set_getD_comm fb.buffer _ _ _ _ (pxByte_comm c _ _)

/-- A `draw_pixel` call is idempotent. -/
theorem draw_pixel_idem (fb : FrameBuffer) (x y c : Int) :
    (fb.draw_pixel x y c).draw_pixel x y c = fb.draw_pixel x y c := by
  by_cases h : x < 0 ∨ (fb.width : Int) ≤ x ∨ y < 0 ∨ (fb.height : Int) ≤ y
  · rw [draw_pixel_skip fb x y c h, draw_pixel_skip fb x y c h]
  · rw [draw_pixel_write fb x y c h, draw_pixel_write _ x y c (by simpa using h)]
    simp only
    congr 1
    exact set_getD_idem fb.buffer _ _ (pxByte_idem c _)

theorem applyWrites_nil (c : Int) (fb : FrameBuffer) : applyWrites c [] fb = fb := rfl

theorem applyWrites_cons (c : Int) (w : Int × Int) (ws : List (Int × Int))
    (fb : FrameBuffer) :
    applyWrites c (w :: ws) fb = applyWrites c ws (fb.draw_pixel w.1 w.2 c) := rfl

theorem applyWrites_append (c : Int) (w1 w2 : List (Int × Int)) (fb : FrameBuffer) :
    applyWrites c (w1 ++ w2) fb = applyWrites c w2 (applyWrites c w1 fb) :=
  List.foldl_append ..

/-- A single same-color pixel write moves through a write list. -/
theorem draw_pixel_applyWrites_comm (c : Int) (ws : List (Int × Int)) :
    ∀ (fb : FrameBuffer) (x y : Int),
      applyWrites c ws (fb.draw_pixel x y c) = (applyWrites c ws fb).draw_pixel x y c := by
  induction ws with
  | nil => intro fb x y; rfl
  | cons w ws ih =>
    intro fb x y
    rw [applyWrites_cons, applyWrites_cons, draw_pixel_comm, ih]

/-- Two same-color write lists commute. -/
theorem applyWrites_comm (c : Int) (w1 w2 : List (Int × Int)) :
    ∀ fb : FrameBuffer,
      applyWrites c w1 (applyWrites c w2 fb) = applyWrites c w2 (applyWrites c w1 fb) := by
  induction w2 with
  | nil => intro fb; rfl
  | cons w w2 ih =>
    intro fb
    rw [applyWrites_cons, applyWrites_cons, ih, draw_pixel_applyWrites_comm]

/-- Replaying a same-color write list is a no-op. -/
theorem applyWrites_idem (c : Int) (ws : List (Int × Int)) :
    ∀ fb : FrameBuffer, applyWrites c ws (applyWrites c ws fb) = applyWrites c ws fb := by
  induction ws with
  | nil => intro fb; rfl
  | cons w ws ih =>
    intro fb
    conv_lhs => rw [applyWrites_cons]
    rw [applyWrites_cons, ← draw_pixel_applyWrites_comm, draw_pixel_idem, ih]

/-- The pixels the scanline-fill block writes, as a pure function of the
vertex list and the surface dimensions (the fill never reads the buffer). -/
def fillWrites (w h : Nat) (point_list : List (Int × Int)) : List (Int × Int) :=
  match point_list with
  | [] => []
  | p0 :: _ =>
    let ys := point_list.map Prod.snd
    let min_y : Int := max (ys.foldl min p0.2) 0
    let max_y : Int := min (ys.foldl max p0.2) ((h : Int) - 1)
    (intRange min_y (max_y + 1)).flatMap (fun (y : Int) =>
      let edges := point_list.zip (point_list.drop 1 ++ point_list.take 1)
      let intersections := edges.foldr (fun e acc =>
        if e.1.2 = e.2.2 then acc
        else if min e.1.2 e.2.2 ≤ y ∧ y < max e.1.2 e.2.2 then
          ((e.1.1 : ℚ) + ((y : ℚ) - (e.1.2 : ℚ)) * ((e.2.1 : ℚ) - (e.1.1 : ℚ))
              / ((e.2.2 : ℚ) - (e.1.2 : ℚ))) :: acc
        else acc) []
      (FrameBuffer.fillScan.pairUp (sortRat intersections)).flatMap (fun pr =>
        let x_start := max (ratCeil pr.1) 0
        let x_end := min (ratFloor pr.2) ((w : Int) - 1)
        (intRange x_start (x_end + 1)).map (fun x => (x, y))))

theorem applyWrites_map_fst (c : Int) (y : Int) (l : List Int) :
    ∀ fb : FrameBuffer,
      applyWrites c (l.map (fun x => (x, y))) fb =
        l.foldl (fun b x => b.draw_pixel x y c) fb := by
  induction l with
  | nil => intro fb; rfl
  | cons x l ih => intro fb; rw [List.map_cons, applyWrites_cons]; exact ih _

/-- A fold whose step is, on every surface of width `w`, the replay of a pure
per-element write list, equals replaying the concatenation of those lists. -/
theorem foldl_eq_applyWrites {γ : Type} (c : Int) (w : Nat)
    (scanW : γ → List (Int × Int)) (body : FrameBuffer → γ → FrameBuffer)
    (hbody : ∀ (fbY : FrameBuffer) (y : γ), fbY.width = w →
      body fbY y = applyWrites c (scanW y) fbY) :
    ∀ (l : List γ) (fbY : FrameBuffer), fbY.width = w →
      l.foldl body fbY = applyWrites c (l.flatMap scanW) fbY := by
  intro l
  induction l with
  | nil => intro fbY hw; rfl
  | cons y l ih =>
    intro fbY hw
    have hw2 : (body fbY y).width = w := by
      rw [hbody fbY y hw]
      exact ((applyWrites_shape c _ fbY).1).trans hw
    rw [List.foldl_cons, List.flatMap_cons, applyWrites_append, ← hbody fbY y hw]
    exact ih (body fbY y) hw2

/-- The scanline-fill block equals replaying its pure write list. -/
theorem fillScan_eq_applyWrites (fb : FrameBuffer) (pl : List (Int × Int)) (c : Int) :
    fb.fillScan pl c = applyWrites c (fillWrites fb.width fb.height pl) fb := by
  unfold FrameBuffer.fillScan fillWrites
  match pl with
  | [] => rfl
  | p0 :: tl =>
    dsimp only
    refine foldl_eq_applyWrites c fb.width _ _ ?_ _ fb rfl
    intro fbY y hw
    refine foldl_eq_applyWrites c fb.width _ _ ?_ _ fbY hw
    intro fbP pr hwP
    rw [hwP]
    exact (applyWrites_map_fst c y _ fbP).symm

theorem applyWrites_width (c : Int) (ws : List (Int × Int)) (fb : FrameBuffer) :
    (applyWrites c ws fb).width = fb.width := (applyWrites_shape c ws fb).1

theorem applyWrites_height (c : Int) (ws : List (Int × Int)) (fb : FrameBuffer) :
    (applyWrites c ws fb).height = fb.height := (applyWrites_shape c ws fb).2.1

/-- The outline part of `draw_polygon` alone: each consecutive pair of
vertices plus the closing edge drawn exactly once, no fill. -/
def outlineLoop (color : Int) : (Int × Int) → List (Int × Int) → FrameBuffer → FrameBuffer
  | _, [], fb => fb
  | old, p :: rest, fb =>
    outlineLoop color p rest (fb.draw_line old.1 old.2 p.1 p.2 color)

/-- The pixels the outline draws, as a pure list. -/
def outlineWrites : (Int × Int) → List (Int × Int) → List (Int × Int)
  | _, [] => []
  | old, p :: rest => linePixels old.1 old.2 p.1 p.2 ++ outlineWrites p rest

theorem outlineLoop_eq_applyWrites (c : Int) :
    ∀ (pts : List (Int × Int)) (old : Int × Int) (fb : FrameBuffer),
      outlineLoop c old pts fb = applyWrites c (outlineWrites old pts) fb := by
  intro pts
  induction pts with
  | nil => intro old fb; rfl
  | cons p rest ih =>
    intro old fb
    rw [outlineLoop, outlineWrites, applyWrites_append]
    exact ih p _

/-- Modelled from the spec: the composition §4.3 describes for
`draw_polygon(vertices, tone, fill=True)` — draw every edge of the polygon
(the closing edge `vertex[-1] → vertex[0]` first, then each consecutive
pair) exactly once, then execute a single scanline-fill pass. -/
def draw_polygon_spec (fb : FrameBuffer) (point_list : List (Int × Int)) (color : Int)
    (fill : Bool) : Option FrameBuffer :=
  match point_list.getLast? with
  | none => none
  | some old_point =>
    let fb1 := outlineLoop color old_point point_list fb
    some (if fill then fb1.fillScan point_list color else fb1)

/-- A fill pass executed before some outline edges and then repeated is
absorbed by the final fill pass: writes of one color are idempotent and
commute. -/
theorem fillScan_absorb (pl : List (Int × Int)) (c : Int) (a : Int × Int)
    (pts : List (Int × Int)) (g : FrameBuffer) :
    (outlineLoop c a pts (g.fillScan pl c)).fillScan pl c =
      (outlineLoop c a pts g).fillScan pl c := by
  rw [outlineLoop_eq_applyWrites, outlineLoop_eq_applyWrites,
    fillScan_eq_applyWrites g, fillScan_eq_applyWrites, fillScan_eq_applyWrites]
  simp only [applyWrites_width, applyWrites_height]
  rw [applyWrites_comm c (outlineWrites a pts) (fillWrites g.width g.height pl),
    applyWrites_idem]

/-- The interleaved loop of the source (fill pass inside the vertex loop)
produces the same surface as outlining once and then filling once. -/
theorem polyLoop_fill_eq (pl : List (Int × Int)) (c : Int) :
    ∀ (pts : List (Int × Int)) (old : Int × Int) (fb : FrameBuffer), pts ≠ [] →
      FrameBuffer.polyLoop pl c true old pts fb =
        (outlineLoop c old pts fb).fillScan pl c := by
  intro pts
  induction pts with
  | nil => intro old fb h; exact absurd rfl h
  | cons p rest ih =>
    intro old fb h
    rcases eq_or_ne rest [] with hr | hne
    · subst hr
      simp [FrameBuffer.polyLoop, outlineLoop]
    · show FrameBuffer.polyLoop pl c true p rest
        ((fb.draw_line old.1 old.2 p.1 p.2 c).fillScan pl c) = _
      rw [ih p _ hne, fillScan_absorb, outlineLoop]

/-- C1: for every vertex list, tone, and surface, `draw_polygon` with
`fill = True` leaves the buffer in exactly the state obtained by drawing each
of the polygon's edges (each consecutive pair plus the closing edge, each
exactly once) and then executing a single scanline-fill pass: although the
source runs the fill block once per vertex (it sits inside the vertex loop),
same-tone pixel writes commute and are idempotent, so the result equals the
single-fill composition `draw_polygon_spec`, independent of vertex count. -/
theorem draw_polygon_fill_once (fb : FrameBuffer) (pl : List (Int × Int)) (color : Int) :
    fb.draw_polygon pl color true = draw_polygon_spec fb pl color true := by
  unfold FrameBuffer.draw_polygon draw_polygon_spec
  rcases hl : pl.getLast? with _ | old
  · rfl
  · have hne : pl ≠ [] := by
      rintro rfl
      simp at hl
    simp only [if_pos rfl]
    exact congrArg some (polyLoop_fill_eq pl color pl old fb hne)

/-- Prepending the currently plotted point to a trajectory that reaches the
endpoint. -/
theorem cons_reach {α : Type} (p q : α) (l : List α) (n m : Nat)
    (h : l.getLast? = some q ∧ l.length ≤ n) (hnm : n + 1 ≤ m) :
    (p :: l).getLast? = some q ∧ (p :: l).length ≤ m := by
  obtain ⟨h1, h2⟩ := h
  cases l with
  | nil => simp at h1
  | cons b l2 =>
    refine ⟨by rw [List.getLast?_cons_cons]; exact h1, ?_⟩
    simp only [List.length_cons] at h2 ⊢
    omega

/-- The Bresenham loop invariant: writing the current point as
`(x1 - sx*a, y1 - sy*b)` with `a`/`b` the remaining axis distances, the
running error is determined as `D - E + a*E - b*D`, the loop never oversteps
(`a`, `b` stay nonnegative), and with more than `a + b` units of fuel it
plots exactly the points down to `(x1, y1)` and stops there. -/
theorem bres_reach : ∀ (fuel : Nat) (x0 y0 x1 y1 err sx sy D E a b : Int),
    0 ≤ D → 0 ≤ E → (sx = 1 ∨ sx = -1) → (sy = 1 ∨ sy = -1) →
    0 ≤ a → a ≤ D → 0 ≤ b → b ≤ E → a + b < (fuel : Int) →
    x0 = x1 - sx * a → y0 = y1 - sy * b → err = D - E + a * E - b * D →
    (bres fuel x0 y0 x1 y1 err sx sy D (-E)).getLast? = some (x1, y1) ∧
      (bres fuel x0 y0 x1 y1 err sx sy D (-E)).length ≤ (a + b).toNat + 1 := by
  intro fuel
  induction fuel with
  | zero =>
    intro x0 y0 x1 y1 err sx sy D E a b hD hE hsx hsy ha0 haD hb0 hbE hfuel hx0 hy0 herr
    exact absurd hfuel (by push_cast; omega)
  | succ n ih =>
    intro x0 y0 x1 y1 err sx sy D E a b hD hE hsx hsy ha0 haD hb0 hbE hfuel hx0 hy0 herr
    subst hx0 hy0 herr
    have hfuel2 : a + b ≤ (n : Int) := by push_cast at hfuel ⊢; omega
    simp only [bres]
    by_cases hab : a = 0 ∧ b = 0
    · obtain ⟨rfl, rfl⟩ := hab
      rw [if_pos ⟨by ring, by ring⟩]
      refine ⟨?_, by simp⟩
      simp only [List.getLast?_singleton, mul_zero, sub_zero]
    · rw [if_neg (show ¬(x1 - sx * a = x1 ∧ y1 - sy * b = y1) from by
        rcases hsx with rfl | rfl <;> rcases hsy with rfl | rfl <;>
          simp only [not_and] <;> intro h1 h2 <;> exact hab (by constructor <;> omega))]
      rcases eq_or_lt_of_le ha0 with ha | ha
      · -- a = 0, so b ≥ 1: only y advances
        obtain rfl := ha.symm
        have hb1 : 1 ≤ b := by omega
        have hE1 : 1 ≤ E := le_trans hb1 hbE
        have hkey : 0 ≤ D * (b - 1) := mul_nonneg hD (by omega)
        simp only [if_neg (show ¬(-E ≤ 2 * (D - E + 0 * E - b * D)) from by
            simp only [not_le]; nlinarith [hkey]),
          if_pos (show 2 * (D - E + 0 * E - b * D) ≤ D from by nlinarith [hkey])]
        refine cons_reach _ _ _ ((0 + (b - 1)).toNat + 1) _
          (ih _ _ x1 y1 _ sx sy D E 0 (b - 1) hD hE hsx hsy le_rfl hD (by omega) (by omega)
            (by omega) (by ring) (by ring) (by ring)) (by omega)
      · rcases eq_or_lt_of_le hb0 with hb | hb
        · -- b = 0, so a ≥ 1: only x advances
          obtain rfl := hb.symm
          have hD1 : 1 ≤ D := le_trans ha haD
          have hkey : 0 ≤ E * (a - 1) := mul_nonneg hE (by omega)
          simp only [if_pos (show -E ≤ 2 * (D - E + a * E - 0 * D) from by nlinarith [hkey]),
            if_neg (show ¬(2 * (D - E + a * E - 0 * D) ≤ D) from by
              simp only [not_le]; nlinarith [hkey])]
          refine cons_reach _ _ _ (((a - 1) + 0).toNat + 1) _
            (ih _ _ x1 y1 _ sx sy D E (a - 1) 0 hD hE hsx hsy (by omega) (by omega) le_rfl hE
              (by omega) (by ring) (by ring) (by ring)) (by omega)
        · -- a ≥ 1 and b ≥ 1
          by_cases hc1 : -E ≤ 2 * (D - E + a * E - b * D)
          · by_cases hc2 : 2 * (D - E + a * E - b * D) ≤ D
            · -- both axes advance
              simp only [if_pos hc1, if_pos hc2]
              refine cons_reach _ _ _ (((a - 1) + (b - 1)).toNat + 1) _
                (ih _ _ x1 y1 _ sx sy D E (a - 1) (b - 1) hD hE hsx hsy (by omega) (by omega)
                  (by omega) (by omega) (by omega) (by ring) (by ring) (by ring)) (by omega)
            · -- only x advances
              simp only [if_pos hc1, if_neg hc2]
              refine cons_reach _ _ _ (((a - 1) + b).toNat + 1) _
                (ih _ _ x1 y1 _ sx sy D E (a - 1) b hD hE hsx hsy (by omega) (by omega)
                  (by omega) (by omega) (by omega) (by ring) (by ring) (by ring)) (by omega)
          · by_cases hc2 : 2 * (D - E + a * E - b * D) ≤ D
            · -- only y advances
              simp only [if_neg hc1, if_pos hc2]
              refine cons_reach _ _ _ ((a + (b - 1)).toNat + 1) _
                (ih _ _ x1 y1 _ sx sy D E a (b - 1) hD hE hsx hsy (by omega) (by omega)
                  (by omega) (by omega) (by omega) (by ring) (by ring) (by ring)) (by omega)
            · -- impossible: the error cannot be both `< -E ≤ 0` and `> D ≥ 0`
              exfalso
              push_neg at hc1 hc2
              linarith

/-- C9: the Bresenham loop of `draw_line` is a finite, bounded computation
for all integer endpoints: the plotted trajectory ends exactly at `(x1, y1)`
(the loop reaches its `break`) after at most `|x1-x0| + |y1-y0| + 1` plots —
in particular the fuel `linePixels` hands to `bres` is always sufficient.
`draw_polygon` and `draw_text` are structural recursions over the finite
vertex list / text string built on top of this loop, so every core operation
terminates. -/
theorem linePixels_reaches_end (x0 y0 x1 y1 : Int) :
    (linePixels x0 y0 x1 y1).getLast? = some (x1, y1) ∧
      (linePixels x0 y0 x1 y1).length ≤ (|x1 - x0| + |y1 - y0|).toNat + 1 := by
  have hsx : (if x0 < x1 then (1 : Int) else -1) = 1 ∨
      (if x0 < x1 then (1 : Int) else -1) = -1 := by
    by_cases h : x0 < x1 <;> simp [h]
  have hsy : (if y0 < y1 then (1 : Int) else -1) = 1 ∨
      (if y0 < y1 then (1 : Int) else -1) = -1 := by
    by_cases h : y0 < y1 <;> simp [h]
  have hx0 : x0 = x1 - (if x0 < x1 then (1 : Int) else -1) * |x1 - x0| := by
    by_cases h : x0 < x1
    · rw [if_pos h, abs_of_nonneg (by omega : (0 : Int) ≤ x1 - x0)]
      ring
    · rw [if_neg h, abs_of_nonpos (by omega : x1 - x0 ≤ 0)]
      ring
  have hy0 : y0 = y1 - (if y0 < y1 then (1 : Int) else -1) * |y1 - y0| := by
    by_cases h : y0 < y1
    · rw [if_pos h, abs_of_nonneg (by omega : (0 : Int) ≤ y1 - y0)]
      ring
    · rw [if_neg h, abs_of_nonpos (by omega : y1 - y0 ≤ 0)]
      ring
  have hfuel : |x1 - x0| + |y1 - y0| <
      (((|x1 - x0| - -|y1 - y0|).toNat + 1 : Nat) : Int) := by
    have hA : 0 ≤ |x1 - x0| := abs_nonneg _
    have hB : 0 ≤ |y1 - y0| := abs_nonneg _
    push_cast
    omega
  have h := bres_reach ((|x1 - x0| - -|y1 - y0|).toNat + 1) x0 y0 x1 y1
    (|x1 - x0| + -|y1 - y0|) (if x0 < x1 then 1 else -1) (if y0 < y1 then 1 else -1)
    (|x1 - x0|) (|y1 - y0|) (|x1 - x0|) (|y1 - y0|)
    (abs_nonneg _) (abs_nonneg _) hsx hsy (abs_nonneg _) le_rfl (abs_nonneg _) le_rfl
    hfuel hx0 hy0 (by ring)
  simpa only [linePixels] using h
